import Mathlib

/-!
Verification of the AutoDelete scheduling core (`queue.go`).

The Go source implements a due-time priority queue (`priorityQueue`, a binary
min-heap driven through Go's `container/heap`), a blocking waiter
(`reapQueue.WaitForNext`), a dispatch loop with an in-flight set
(`reapScheduler` and `curWork`), a semaphore-bounded elastic worker pool
(`controlCh`, `sendWorkItem`), two worker behaviours (`Bot.loadWorker`,
`Bot.reapWorker`) and a backoff policy (`Bot.QueueLoadBacklog`).

Modelling conventions:
* `*ManagedChannel` is an opaque reference; we model it as a `Nat` identity.
* `time.Time` and `time.Duration` are 64-bit nanosecond counts; we model both
  as `Int`, and model Go's wrapping `int64` arithmetic explicitly with
  `wrap64` where the source computes with `int64`.
* `pqItem.index` in the source is bookkeeping written by the heap.Interface
  methods but never read by any decision in this file, so it is omitted.
* Go's `container/heap` functions `up`, `down`, `Fix`, `Push`, `Pop` are
  transcribed from the standard library source (they are what the code runs).
* Concurrency is modelled by explicit state passing: each blocking operation
  becomes a step function on the relevant state, and goroutine interleavings
  become sequences of events / labelled transitions.
-/

/-- An entry of `priorityQueue`: the managed channel and its due time
(`nextReap`).  The `index` field of the Go struct is omitted (see header). -/
structure pqItem where
  ch : Nat
  nextReap : Int
  deriving DecidableEq, Repr, Inhabited

/-- `priorityQueue` is a slice of items; we model the slice as a list. -/
abbrev priorityQueue := List pqItem

/-- Indexing into the slice, with the default item out of range (all uses in
the verified code paths stay in range). -/
def getE (l : priorityQueue) (i : Nat) : pqItem := l.getD i default

/-- The key compared by `priorityQueue.Less`: `nextReap` (via `time.Before`,
a strict comparison). -/
def keyAt (l : priorityQueue) (i : Nat) : Int := (getE l i).nextReap

/-- `priorityQueue.Swap(i, j)`: exchange the items at `i` and `j`. -/
def swapL (l : priorityQueue) (i j : Nat) : priorityQueue :=
  (l.set i (getE l j)).set j (getE l i)

/-- Index of the parent of heap position `j` (Go: `(j - 1) / 2`). -/
def parentIdx (j : Nat) : Nat := (j - 1) / 2

/-- `c` is a heap child of `j`. -/
def ChildOf (c j : Nat) : Prop := c = 2 * j + 1 ∨ c = 2 * j + 2

/-- `container/heap`'s `up(h, j)`: sift the item at `j` towards the root while
it is strictly less than its parent. -/
def up (l : priorityQueue) (j : Nat) : priorityQueue :=
  if h : (j - 1) / 2 = j ∨ ¬ keyAt l j < keyAt l ((j - 1) / 2) then l
  else up (swapL l ((j - 1) / 2) j) ((j - 1) / 2)
termination_by j
decreasing_by
  rw [not_or] at h
  omega

/-- The child `j` selected by `container/heap`'s `down`: the left child
`2*i+1`, or the right child `2*i+2` when it exists below `n` and is strictly
smaller. -/
def downJ (l : priorityQueue) (i n : Nat) : Nat :=
  if 2 * i + 2 < n ∧ keyAt l (2 * i + 2) < keyAt l (2 * i + 1) then 2 * i + 2
  else 2 * i + 1

/-- `container/heap`'s `down(h, i0, n)` loop: sift the item at `i` towards the
leaves of the first `n` positions.  Returns the final position of the moving
item (Go's `down` returns `i > i0`, i.e. whether this differs from the start).
-/
def downAux (l : priorityQueue) (i n : Nat) : priorityQueue × Nat :=
  if h : n ≤ 2 * i + 1 then (l, i)
  else if keyAt l (downJ l i n) < keyAt l i then
    downAux (swapL l i (downJ l i n)) (downJ l i n) n
  else (l, i)
termination_by n - i
decreasing_by
  have hj : i < downJ l i n := by unfold downJ; split <;> omega
  omega

/-- `heap.Push(h, x)`: append `x` and sift it up (Go pushes then calls
`up(h, h.Len()-1)`). -/
def heapPush (l : priorityQueue) (x : pqItem) : priorityQueue :=
  up (l ++ [x]) l.length

/-- `heap.Fix(h, i)`: `if !down(h, i, h.Len()) { up(h, i) }` — Go's `down`
reports whether the item moved, i.e. whether its final position exceeds `i`.
-/
def heapFix (l : priorityQueue) (i : Nat) : priorityQueue :=
  if i < (downAux l i l.length).2 then (downAux l i l.length).1
  else up (downAux l i l.length).1 i

/-- `heap.Pop(h)`: swap the root with the last item of the slice, sift the new
root down within the shortened bound, then remove and return the last item.
On an empty queue the Go code would fault on the slice index; the only caller
(`WaitForNext`) pops after a successful `Peek`, so we return `none` there. -/
def heapPop (l : priorityQueue) : Option (pqItem × priorityQueue) :=
  if l.length = 0 then none
  else
    some (getE (downAux (swapL l 0 (l.length - 1)) 0 (l.length - 1)).1
            (l.length - 1),
          (downAux (swapL l 0 (l.length - 1)) 0 (l.length - 1)).1.take
            (l.length - 1))

/-- `priorityQueue.Peek`: the root, or `nil` when empty. -/
def priorityQueue.Peek (l : priorityQueue) : Option pqItem := l.head?

/-- The linear scan in `reapQueue.Update` (`for i, v := range *q.items`),
returning the index of the first item whose `ch` equals the argument. -/
def findChIdx (l : priorityQueue) (c : Nat) : Option Nat :=
  match l with
  | [] => none
  | v :: rest => if v.ch = c then some 0 else (findChIdx rest c).map (· + 1)

/-- `reapQueue.Update(ch, t)`: if no entry for `ch` exists, `heap.Push` a new
item; otherwise overwrite `nextReap` of the existing entry in place and
`heap.Fix` its position. -/
def reapQueue.Update (l : priorityQueue) (c : Nat) (t : Int) : priorityQueue :=
  match findChIdx l c with
  | none => heapPush l { ch := c, nextReap := t }
  | some idx => heapFix (l.set idx { ch := (getE l idx).ch, nextReap := t }) idx

/-- One successful round of `reapQueue.WaitForNext` at time `now`: `none`
models the blocking branches (empty queue, or root still in the future, where
the code arms the timer and waits on the condition variable); otherwise the
root is popped and its channel returned together with the remaining queue. -/
def reapQueue.WaitForNext (l : priorityQueue) (now : Int) :
    Option (Nat × priorityQueue) :=
  match priorityQueue.Peek l with
  | none => none
  | some it =>
    if now < it.nextReap then none
    else (heapPop l).map fun p => (p.1.ch, p.2)

/-- Go's wrapping `int64` arithmetic: reduce into `[-2^63, 2^63)`. -/
def wrap64 (x : Int) : Int :=
  (x + 9223372036854775808) % 18446744073709551616 - 9223372036854775808

/-- `Bot.QueueLoadBacklog(c, didFail)` acting on channel state.  Input: the
channel's accumulated `loadFailures` delay, the `didFail` flag, the random
draw `r` (= `mrand.Intn(int(5*time.Second))`, so `0 ≤ r < 5e9` in every real
execution) and the current time.  Output: the channel's new `loadFailures`
and the due time passed to `loadRetries.Update` (`time.Now().Add(loadDelay)`).
The source computes `int64(loadDelay)*2 + int64(r)` in `int64` arithmetic,
hence the explicit wrapping. -/
def Bot.QueueLoadBacklog (loadFailures : Int) (didFail : Bool) (r now : Int) :
    Int × Int :=
  if didFail then
    let nf := wrap64 (wrap64 (loadFailures * 2) + r)
    (nf, now + nf)
  else
    (loadFailures, now + loadFailures)

/-- Events consumed by one iteration of the `reapScheduler` / worker system
that touch the in-flight set `curWork`: the dispatch loop popping a channel
from `WaitForNext`, or a worker deleting a channel from `curWork`. -/
inductive QEvent where
  | pop (ch : Nat)
  | finish (ch : Nat)
  deriving DecidableEq, Repr

/-- One `reapScheduler` interaction with `curWork` for a popped channel
(lines 185-196): under `curMu`, check membership; if absent, mark in-flight
and hand the work item on (`some ch`); if present, discard (`continue`,
`none`).  A `finish` event is a worker's `delete(q.curWork, ch)`. -/
def schedStep (cur : Finset Nat) : QEvent → Finset Nat × Option Nat
  | QEvent.pop ch => if ch ∈ cur then (cur, none) else (insert ch cur, some ch)
  | QEvent.finish ch => (cur.erase ch, none)

/-- Run a sequence of scheduler/worker events, collecting the work items that
are handed to the worker pool. -/
def runSched (cur : Finset Nat) : List QEvent → Finset Nat × List Nat
  | [] => (cur, [])
  | e :: es =>
    let r := schedStep cur e
    let rest := runSched r.1 es
    (rest.1, r.2.toList ++ rest.2)

/-- Worker-pool accounting state for one `reapQueue`: `tokens` is the number
of worker tokens currently buffered in `controlCh` (capacity
`maxWorkerCount`), `workers` the number of live worker goroutines. -/
structure WState where
  tokens : Nat
  workers : Nat
  deriving DecidableEq, Repr

/-- The worker-pool transitions of the source.  `spawn`: a send of a
`workerToken` into `controlCh` succeeds (possible only while the buffer holds
fewer than `max` tokens) and is immediately followed by `go workerFunc(...)`
— this is the only way a worker is started, both for the floor worker in
`reapScheduler` and for transient workers in `sendWorkItem`.  `exit`: a
terminating worker receives one token back from `controlCh` (its deferred
`<-q.controlCh`). -/
inductive WStep (max : Nat) : WState → WState → Prop
  | spawn (s : WState) (h : s.tokens < max) :
      WStep max s ⟨s.tokens + 1, s.workers + 1⟩
  | exit (s : WState) (ht : 0 < s.tokens) (hw : 0 < s.workers) :
      WStep max s ⟨s.tokens - 1, s.workers - 1⟩

/-- States reachable from a fresh `newReapQueue(max)` (empty `controlCh`, no
workers). -/
inductive WReachable (max : Nat) : WState → Prop
  | init : WReachable max ⟨0, 0⟩
  | step {s s' : WState} : WReachable max s → WStep max s s' → WReachable max s'

/-- The events a blocked worker goroutine can wake on: its idle timer firing,
or a work item arriving on `q.workCh`. -/
inductive WorkerEvent where
  | timerFired
  | workArrived (ch : Nat)
  deriving DecidableEq, Repr

/-- `Bot.loadWorker`'s `select` (lines 241-259) viewed as: given the event a
blocked worker wakes on, does the goroutine return, and does it release its
semaphore slot (the deferred `<-q.controlCh`, installed only when
`mayTimeout`)?  Returns `(exits, releasesToken)`. -/
def loadWorkerSelect (mayTimeout : Bool) (ev : WorkerEvent) : Bool × Bool :=
  match ev with
  | WorkerEvent.timerFired => (true, mayTimeout)
  | WorkerEvent.workArrived _ => (false, false)

/-- `Bot.reapWorker`'s loop (lines 263-292) is `for work := range q.workCh`:
it has no timer branch at all — the `mayTimeout` parameter is ignored
(`// TODO: implement mayTimeout` in the source), so the goroutine neither
returns nor releases a token on any event short of `workCh` closing. -/
def reapWorkerSelect (mayTimeout : Bool) (ev : WorkerEvent) : Bool × Bool :=
  match mayTimeout, ev with
  | _, WorkerEvent.timerFired => (false, false)
  | _, WorkerEvent.workArrived _ => (false, false)

/-- Results of the external calls made by `Bot.reapWorker` for one work item
(the §6 resource-capability boundary): `collectMessagesToDelete`'s two flags,
whether `ch.Reap` returned a non-nil error, whether
`handleCriticalPermissionsErrors` reported a critical error, the channel's
`GetNextDeletionTime`, and the random draw / current time used by
`QueueLoadBacklog`. -/
structure RWEnv where
  shouldQueueBacklog : Bool
  isDisabled : Bool
  reapErr : Bool
  critical : Bool
  nextReapTime : Int
  r : Int
  now : Int
  deriving DecidableEq, Repr

/-- The state touched by one `Bot.reapWorker` iteration: the reap queue's
in-flight set, the processed channel's `loadFailures`, and the two schedule
queues. -/
structure RWState where
  curWork : Finset Nat
  loadFailures : Int
  reaper : priorityQueue
  loadRetries : priorityQueue
  deriving DecidableEq

/-- One `Bot.reapWorker` loop body for work item `ch` (lines 265-291):
if the channel reports disabled, `continue` (dropping the item, touching
nothing); if the reap error is critical, likewise `continue`; otherwise a
non-nil reap error forces `shouldQueueBacklog`, the worker deletes `ch` from
`curWork`, re-queues the reap (`b.QueueReap`, i.e. `reaper.Update` at
`GetNextDeletionTime`), and if the backlog flag is set calls
`b.QueueLoadBacklog(ch, true)`. -/
def Bot.reapWorkerStep (s : RWState) (ch : Nat) (env : RWEnv) : RWState :=
  if env.isDisabled then s
  else if env.critical then s
  else
    let sqb := if env.reapErr then true else env.shouldQueueBacklog
    let s1 : RWState := { s with curWork := s.curWork.erase ch }
    let s2 : RWState :=
      { s1 with reaper := reapQueue.Update s1.reaper ch env.nextReapTime }
    if sqb then
      let q := Bot.QueueLoadBacklog s2.loadFailures true env.r env.now
      { s2 with loadFailures := q.1,
                loadRetries := reapQueue.Update s2.loadRetries ch q.2 }
    else s2

/-- Results of the external calls made by `Bot.loadWorker` for one work item:
`IsDisabled`, whether `LoadBacklog`'s error was retryable
(`isRetryableLoadError`), and the random draw / current time for
`QueueLoadBacklog`. -/
structure LWEnv where
  isDisabled : Bool
  retryable : Bool
  r : Int
  now : Int
  deriving DecidableEq, Repr

/-- The state touched by one `Bot.loadWorker` iteration. -/
structure LWState where
  curWork : Finset Nat
  loadFailures : Int
  loadRetries : priorityQueue
  deriving DecidableEq

/-- One `Bot.loadWorker` work-item body (lines 244-258): if the channel is
disabled, `continue` (touching nothing); otherwise run `LoadBacklog`, delete
`ch` from `curWork`, and on a retryable error call
`b.QueueLoadBacklog(ch, true)`. -/
def Bot.loadWorkerStep (s : LWState) (ch : Nat) (env : LWEnv) : LWState :=
  if env.isDisabled then s
  else
    let s1 : LWState := { s with curWork := s.curWork.erase ch }
    if env.retryable then
      let q := Bot.QueueLoadBacklog s1.loadFailures true env.r env.now
      { s1 with loadFailures := q.1,
                loadRetries := reapQueue.Update s1.loadRetries ch q.2 }
    else s1

/-- The binary min-heap shape on the first `n` positions: every non-root
position is at least its parent. -/
def IsHeapN (l : priorityQueue) (n : Nat) : Prop :=
  ∀ j, j < n → 0 < j → keyAt l (parentIdx j) ≤ keyAt l j

/-- The heap invariant of a `priorityQueue`. -/
def IsMinHeap (l : priorityQueue) : Prop := IsHeapN l l.length

/-- Heap shape on the first `n` positions except possibly at the edge into
position `j` (used as the `up` loop invariant). -/
def HeapExcept (l : priorityQueue) (n j : Nat) : Prop :=
  ∀ k, k < n → 0 < k → k ≠ j → keyAt l (parentIdx k) ≤ keyAt l k

/-- Heap shape on the first `n` positions except possibly at the edges out of
position `i` (used as the `down` loop invariant). -/
def HeapExceptFrom (l : priorityQueue) (n i : Nat) : Prop :=
  ∀ k, k < n → 0 < k → parentIdx k ≠ i → keyAt l (parentIdx k) ≤ keyAt l k

/-- When `j` is not the root: the value above `j` already dominates `j`'s
children (the hole invariant shared by `up` and `down`). -/
def GrandOK (l : priorityQueue) (n j : Nat) : Prop :=
  0 < j → ∀ c, c < n → ChildOf c j → keyAt l (parentIdx j) ≤ keyAt l c

/-- Number of entries of the queue for channel `c`. -/
def chCount (l : priorityQueue) (c : Nat) : Nat :=
  l.countP fun v => v.ch == c

/-- Full specification of one `downAux l i n` run, relative to the input:
length preserved; positions below `i` and at or above `n` untouched; the
result is a heap on the first `n` positions except possibly at the edge into
`i`; the final position is at least `i`; when the item did not move the list
is unchanged and the item already sat below its children; when it did move
(and `i` is not the root) the edge into `i` holds as well. -/
def DownSpec (l : priorityQueue) (i n : Nat) (r : priorityQueue × Nat) : Prop :=
  r.1.length = l.length ∧
  (∀ k, k < i → getE r.1 k = getE l k) ∧
  (∀ k, n ≤ k → getE r.1 k = getE l k) ∧
  HeapExcept r.1 n i ∧
  i ≤ r.2 ∧
  (r.2 = i → r.1 = l) ∧
  (r.2 = i → ∀ c, c < n → ChildOf c i → keyAt l i ≤ keyAt l c) ∧
  (i < r.2 → 0 < i → keyAt r.1 (parentIdx i) ≤ keyAt r.1 i)

instance (l : priorityQueue) (n : Nat) : Decidable (IsHeapN l n) := by
  unfold IsHeapN
  exact Nat.decidableBallLT n fun j _ => _

instance (l : priorityQueue) : Decidable (IsMinHeap l) := by
  unfold IsMinHeap
  infer_instance

/-! ### Basic facts about `getE`, `set` and `swapL` -/

theorem getE_cons_zero (a : pqItem) (l : priorityQueue) : getE (a :: l) 0 = a := rfl

theorem getE_cons_succ (a : pqItem) (l : priorityQueue) (i : Nat) :
    getE (a :: l) (i + 1) = getE l i := rfl

theorem getE_set_self : ∀ (l : priorityQueue) (i : Nat) (x : pqItem),
    i < l.length → getE (l.set i x) i = x := by
  intro l
  induction l with
  | nil => intro i x h; simp at h
  | cons a tl ih =>
    intro i x h
    cases i with
    | zero => rfl
    | succ i => exact ih i x (by simpa using h)

theorem getE_set_ne : ∀ (l : priorityQueue) (i : Nat) (x : pqItem) (j : Nat),
    j ≠ i → getE (l.set i x) j = getE l j := by
  intro l
  induction l with
  | nil => intro i x j _; simp
  | cons a tl ih =>
    intro i x j h
    cases i with
    | zero =>
      cases j with
      | zero => exact absurd rfl h
      | succ j => rfl
    | succ i =>
      cases j with
      | zero => rfl
      | succ j => exact ih i x j (by omega)

theorem length_swapL (l : priorityQueue) (i j : Nat) :
    (swapL l i j).length = l.length := by
  simp [swapL]

theorem getE_swapL_left (l : priorityQueue) (i j : Nat)
    (hi : i < l.length) (hj : j < l.length) : getE (swapL l i j) i = getE l j := by
  unfold swapL
  by_cases hij : i = j
  · subst hij
    rw [getE_set_self _ _ _ (by simpa using hi)]
  · rw [getE_set_ne _ _ _ _ hij, getE_set_self _ _ _ hi]

theorem getE_swapL_right (l : priorityQueue) (i j : Nat)
    (hi : i < l.length) (hj : j < l.length) : getE (swapL l i j) j = getE l i := by
  unfold swapL
  rw [getE_set_self _ _ _ (by simpa using hj)]

theorem getE_swapL_ne (l : priorityQueue) (i j k : Nat)
    (hki : k ≠ i) (hkj : k ≠ j) : getE (swapL l i j) k = getE l k := by
  unfold swapL
  rw [getE_set_ne _ _ _ _ hkj, getE_set_ne _ _ _ _ hki]

theorem keyAt_swapL_left (l : priorityQueue) (i j : Nat)
    (hi : i < l.length) (hj : j < l.length) : keyAt (swapL l i j) i = keyAt l j := by
  unfold keyAt; rw [getE_swapL_left l i j hi hj]

theorem keyAt_swapL_right (l : priorityQueue) (i j : Nat)
    (hi : i < l.length) (hj : j < l.length) : keyAt (swapL l i j) j = keyAt l i := by
  unfold keyAt; rw [getE_swapL_right l i j hi hj]

theorem keyAt_swapL_ne (l : priorityQueue) (i j k : Nat)
    (hki : k ≠ i) (hkj : k ≠ j) : keyAt (swapL l i j) k = keyAt l k := by
  unfold keyAt; rw [getE_swapL_ne l i j k hki hkj]

theorem getE_mem : ∀ (l : priorityQueue) (i : Nat), i < l.length → getE l i ∈ l := by
  intro l
  induction l with
  | nil => intro i h; simp at h
  | cons a tl ih =>
    intro i h
    cases i with
    | zero => exact List.mem_cons_self a tl
    | succ i => exact List.mem_cons_of_mem a (ih i (by simpa using h))

theorem mem_set_or : ∀ (l : priorityQueue) (i : Nat) (x v : pqItem),
    v ∈ l.set i x → v ∈ l ∨ v = x := by
  intro l
  induction l with
  | nil => intro i x v h; simp at h
  | cons a tl ih =>
    intro i x v h
    cases i with
    | zero =>
      rcases List.mem_cons.mp h with h | h
      · exact Or.inr h
      · exact Or.inl (List.mem_cons_of_mem a h)
    | succ i =>
      rcases List.mem_cons.mp h with h | h
      · exact Or.inl (h ▸ List.mem_cons_self a tl)
      · rcases ih i x v h with h | h
        · exact Or.inl (List.mem_cons_of_mem a h)
        · exact Or.inr h

/-! ### Counting lemmas -/

theorem countP_set (p : pqItem → Bool) : ∀ (l : priorityQueue) (i : Nat) (x : pqItem),
    i < l.length →
    (l.set i x).countP p + (if p (getE l i) then 1 else 0) =
      l.countP p + (if p x then 1 else 0) := by
  intro l
  induction l with
  | nil => intro i x h; simp at h
  | cons a tl ih =>
    intro i x h
    cases i with
    | zero =>
      simp only [List.set, List.countP_cons, getE_cons_zero]
      omega
    | succ i =>
      have := ih i x (by simpa using h)
      simp only [List.set, List.countP_cons, getE_cons_succ]
      omega

theorem countP_swapL (p : pqItem → Bool) (l : priorityQueue) (i j : Nat)
    (hi : i < l.length) (hj : j < l.length) :
    (swapL l i j).countP p = l.countP p := by
  have h1 := countP_set p l i (getE l j) hi
  have h2 := countP_set p (l.set i (getE l j)) j (getE l i) (by simpa using hj)
  by_cases hij : i = j
  · subst hij
    rw [getE_set_self _ _ _ hi] at h2
    unfold swapL
    omega
  · rw [getE_set_ne _ _ _ _ (Ne.symm hij)] at h2
    unfold swapL
    omega

theorem mem_iff_countP (v : pqItem) (l : priorityQueue) :
    v ∈ l ↔ 0 < l.countP (fun x => x == v) := by
  rw [List.countP_pos_iff]
  constructor
  · intro h; exact ⟨v, h, by simp⟩
  · rintro ⟨a, ha, he⟩
    have : a = v := by simpa using he
    exact this ▸ ha

theorem two_mem_le_countP (p : pqItem → Bool) : ∀ (l : priorityQueue) (v w : pqItem),
    v ∈ l → w ∈ l → v ≠ w → p v → p w → 2 ≤ l.countP p := by
  intro l
  induction l with
  | nil => intro v w hv _ _ _ _; simp at hv
  | cons a tl ih =>
    intro v w hv hw hvw hpv hpw
    rcases List.mem_cons.mp hv with hv1 | hv1
    · have hw1 : w ∈ tl := by
        rcases List.mem_cons.mp hw with hw1 | hw1
        · exact absurd (hv1.trans hw1.symm) hvw
        · exact hw1
      have hcnt : 0 < tl.countP p := List.countP_pos_iff.mpr ⟨w, hw1, hpw⟩
      have hpa : p a = true := hv1 ▸ hpv
      simp only [List.countP_cons, hpa, if_true]
      omega
    · rcases List.mem_cons.mp hw with hw1 | hw1
      · have hcnt : 0 < tl.countP p := List.countP_pos_iff.mpr ⟨v, hv1, hpv⟩
        have hpa : p a = true := hw1 ▸ hpw
        simp only [List.countP_cons, hpa, if_true]
        omega
      · have := ih v w hv1 hw1 hvw hpv hpw
        simp only [List.countP_cons]
        omega

/-! ### `findChIdx` -/

theorem findChIdx_some : ∀ (l : priorityQueue) (c : Nat) (idx : Nat),
    findChIdx l c = some idx → idx < l.length ∧ (getE l idx).ch = c := by
  intro l
  induction l with
  | nil => intro c idx h; simp [findChIdx] at h
  | cons a tl ih =>
    intro c idx h
    unfold findChIdx at h
    split at h
    · cases h
      exact ⟨by simp, by assumption⟩
    · rw [Option.map_eq_some'] at h
      obtain ⟨k, hk, hk2⟩ := h
      obtain ⟨h1, h2⟩ := ih c k hk
      subst hk2
      exact ⟨by simpa using h1, h2⟩

theorem findChIdx_none : ∀ (l : priorityQueue) (c : Nat),
    findChIdx l c = none → ∀ v ∈ l, v.ch ≠ c := by
  intro l
  induction l with
  | nil => intro c _ v hv; simp at hv
  | cons a tl ih =>
    intro c h v hv
    unfold findChIdx at h
    split at h
    · cases h
    · rw [Option.map_eq_none'] at h
      rcases List.mem_cons.mp hv with hv1 | hv1
      · exact hv1 ▸ (by assumption)
      · exact ih c h v hv1

/-! ### Claim C3: in-flight deduplication -/

/-- C3: along any sequence of dispatch-loop pops and worker completions in
which no worker removes `ch` from the in-flight set, a channel already in
`curWork` is never handed to the worker pool again (every pop of it is
discarded with no work item sent) and it remains in `curWork`. -/
theorem C3_inflight_never_redispatched (cur : Finset Nat) (ch : Nat)
    (evs : List QEvent) (h : ch ∈ cur) (hno : QEvent.finish ch ∉ evs) :
    ch ∉ (runSched cur evs).2 ∧ ch ∈ (runSched cur evs).1 := by
  induction evs generalizing cur with
  | nil => exact ⟨by simp [runSched], by simpa [runSched] using h⟩
  | cons e es ih =>
    have hno' : QEvent.finish ch ∉ es := fun hx => hno (List.mem_cons_of_mem _ hx)
    cases e with
    | pop c =>
      by_cases hc : c ∈ cur
      · have hr := ih cur h hno'
        simpa [runSched, schedStep, hc] using hr
      · have hcch : c ≠ ch := fun he => hc (he ▸ h)
        have hr := ih (insert c cur) (Finset.mem_insert_of_mem h) hno'
        refine ⟨?_, by simpa [runSched, schedStep, hc] using hr.2⟩
        intro hmem
        simp only [runSched, schedStep, hc, if_false, Option.toList_some] at hmem
        rcases List.mem_append.mp hmem with h1 | h1
        · exact hcch (List.mem_singleton.mp h1).symm
        · exact hr.1 h1
    | finish c =>
      have hcch : ch ≠ c := fun he => hno (by simp [he])
      have hr := ih (cur.erase c) (Finset.mem_erase.mpr ⟨hcch, h⟩) hno'
      simpa [runSched, schedStep] using hr

/-- Witness for C3 at a concrete trace: channel 5 is in flight, gets popped
again, and is neither re-dispatched nor removed. -/
theorem C3_witness :
    (5 : Nat) ∈ ({5} : Finset Nat) ∧
    QEvent.finish 5 ∉ [QEvent.pop 5, QEvent.pop 3] ∧
    5 ∉ (runSched {5} [QEvent.pop 5, QEvent.pop 3]).2 :=
  ⟨by decide, by decide,
    (C3_inflight_never_redispatched {5} 5 [QEvent.pop 5, QEvent.pop 3]
      (by decide) (by decide)).1⟩

/-! ### Claim C4: the worker pool never exceeds its bound -/

/-- Inductive invariant of the worker-pool accounting: live workers never
exceed buffered tokens, and buffered tokens never exceed the `controlCh`
capacity. -/
theorem wreachable_inv {max : Nat} {s : WState} (h : WReachable max s) :
    s.workers ≤ s.tokens ∧ s.tokens ≤ max := by
  induction h with
  | init => exact ⟨Nat.le_refl 0, Nat.zero_le max⟩
  | step _ hs ih =>
    cases hs with
    | spawn hlt => exact ⟨Nat.succ_le_succ ih.1, hlt⟩
    | exit ht hw =>
      exact ⟨Nat.sub_le_sub_right ih.1 1,
        Nat.le_trans (Nat.sub_le _ _) ih.2⟩

/-- C4: in every state reachable from a fresh `newReapQueue(max)`, the number
of live workers never exceeds `max`: every worker start is preceded by a
successful token send into `controlCh` (buffer capacity `max`), and every
exit returns its token. -/
theorem C4_worker_pool_bounded (max : Nat) (s : WState)
    (h : WReachable max s) : s.workers ≤ max :=
  Nat.le_trans (wreachable_inv h).1 (wreachable_inv h).2

/-- Witness for C4: after spawning the floor worker with `max = 2`, one
worker is live, within the bound. -/
theorem C4_witness : ({ tokens := 1, workers := 1 } : WState).workers ≤ 2 :=
  C4_worker_pool_bounded 2 ⟨1, 1⟩
    (WReachable.step WReachable.init (WStep.spawn ⟨0, 0⟩ (by decide)))

/-! ### Claim C9: idle-timeout behaviour of the two worker functions -/

/-- C9: on an idle-timer fire a transient (`mayTimeout = true`) `loadWorker`
returns and releases its semaphore token, but `reapWorker` ignores
`mayTimeout` (the source's `TODO: implement mayTimeout`) and neither exits
nor releases — refuting the claim for one of the two worker functions. -/
theorem C9_idle_timeout_divergence :
    loadWorkerSelect true WorkerEvent.timerFired = (true, true) ∧
    reapWorkerSelect true WorkerEvent.timerFired = (false, false) :=
  ⟨rfl, rfl⟩

/-! ### Claim C10: QueueLoadBacklog with didFail = false -/

/-- C10: a non-failure `QueueLoadBacklog` leaves the accumulated delay
unchanged and still schedules the load at `now + loadFailures`, so a stale
positive accumulated delay postpones even non-failure backlog loads. -/
theorem C10_no_fail_keeps_delay (cur r now : Int) :
    (Bot.QueueLoadBacklog cur false r now).1 = cur ∧
    (Bot.QueueLoadBacklog cur false r now).2 = now + cur ∧
    (0 < cur → now < (Bot.QueueLoadBacklog cur false r now).2) := by
  refine ⟨rfl, rfl, fun h => ?_⟩
  show now < now + cur
  omega

/-- Witness for C10 with a stale delay of 7ns. -/
theorem C10_witness :
    (0 : Int) < 7 ∧ (0 : Int) < (Bot.QueueLoadBacklog 7 false 3 0).2 :=
  ⟨by decide, (C10_no_fail_keeps_delay 7 3 0).2.2 (by decide)⟩

/-! ### Claim C5: the backoff computation -/

/-- `wrap64` is the identity on values already in `int64` range. -/
theorem wrap64_eq_self (x : Int) (h0 : -9223372036854775808 ≤ x)
    (h1 : x < 9223372036854775808) : wrap64 x = x := by
  unfold wrap64
  have h2 : (x + 9223372036854775808) % 18446744073709551616 =
      x + 9223372036854775808 :=
    Int.emod_eq_of_lt (by omega) (by omega)
  omega

/-- C5 (counterexample): with `currentDelay = 2^62` and jitter 0 the doubling
overflows `int64` and wraps negative, violating both claimed bounds
(`newDelay ≥ 2*currentDelay` and `newDelay ≥ currentDelay`). -/
theorem C5_overflow_cex :
    (Bot.QueueLoadBacklog 4611686018427387904 true 0 0).1 <
      4611686018427387904 ∧
    ¬ (2 * 4611686018427387904 ≤
        (Bot.QueueLoadBacklog 4611686018427387904 true 0 0).1) := by
  have hv : (Bot.QueueLoadBacklog 4611686018427387904 true 0 0).1 =
      -9223372036854775808 := by
    show wrap64 (wrap64 (4611686018427387904 * 2) + 0) = _
    norm_num [wrap64]
  rw [hv]
  norm_num

/-- C5 (amended): provided the doubled delay plus jitter stays within `int64`
(no overflow), a failing `QueueLoadBacklog` sets
`newDelay = currentDelay*2 + r`, which satisfies
`2*currentDelay ≤ newDelay < 2*currentDelay + 5s`, is monotonically
non-decreasing, and the next attempt is scheduled at `now + newDelay`. -/
theorem C5_backoff_amended (cur r now : Int) (h0 : 0 ≤ cur) (h1 : 0 ≤ r)
    (h2 : r < 5000000000) (h3 : cur * 2 + r < 9223372036854775808) :
    (Bot.QueueLoadBacklog cur true r now).1 = cur * 2 + r ∧
    2 * cur ≤ (Bot.QueueLoadBacklog cur true r now).1 ∧
    (Bot.QueueLoadBacklog cur true r now).1 < 2 * cur + 5000000000 ∧
    cur ≤ (Bot.QueueLoadBacklog cur true r now).1 ∧
    (Bot.QueueLoadBacklog cur true r now).2 =
      now + (Bot.QueueLoadBacklog cur true r now).1 := by
  have w1 : wrap64 (cur * 2) = cur * 2 := wrap64_eq_self _ (by omega) (by omega)
  have hmain : (Bot.QueueLoadBacklog cur true r now).1 = cur * 2 + r := by
    show wrap64 (wrap64 (cur * 2) + r) = cur * 2 + r
    rw [w1]
    exact wrap64_eq_self _ (by omega) (by omega)
  exact ⟨hmain, by rw [hmain]; omega, by rw [hmain]; omega,
    by rw [hmain]; omega, rfl⟩

/-- Witness for the amended C5 at `currentDelay = 1s`, `r = 3`. -/
theorem C5_backoff_amended_witness :
    (0 : Int) ≤ 1000000000 ∧
    (Bot.QueueLoadBacklog 1000000000 true 3 10).1 = 1000000000 * 2 + 3 :=
  ⟨by decide,
    (C5_backoff_amended 1000000000 3 10 (by decide) (by decide) (by decide)
      (by decide)).1⟩

/-! ### Claim C6: in-flight cleanup on the worker paths -/

/-- C6 (counterexample): on the discard paths the workers do NOT remove the
channel from the in-flight set before the unit of work ends: a disabled
channel leaves `curWork` unchanged in `reapWorker` (`continue` at line 269),
a critical permissions error likewise (line 275), and a disabled channel
leaves it unchanged in `loadWorker` (line 247). -/
theorem C6_discard_keeps_inflight_cex :
    7 ∈ (Bot.reapWorkerStep ⟨{7}, 0, [], []⟩ 7
          ⟨false, true, false, false, 0, 0, 0⟩).curWork ∧
    7 ∈ (Bot.reapWorkerStep ⟨{7}, 0, [], []⟩ 7
          ⟨false, false, false, true, 0, 0, 0⟩).curWork ∧
    7 ∈ (Bot.loadWorkerStep ⟨{7}, 0, []⟩ 7 ⟨true, false, 0, 0⟩).curWork := by
  refine ⟨?_, ?_, ?_⟩ <;> simp [Bot.reapWorkerStep, Bot.loadWorkerStep]

/-- C6 (amended): the worker removes the resourceRef from the in-flight set
only on the non-discard paths; on the discard paths (disabled in either
worker, critical authorization error in `reapWorker`) `curWork` is left
unchanged, so the channel stays marked in-flight. -/
theorem C6_inflight_cleanup_amended (s : RWState) (ch : Nat) (env : RWEnv)
    (s' : LWState) (ch' : Nat) (env' : LWEnv) :
    (env.isDisabled = false → env.critical = false →
      (Bot.reapWorkerStep s ch env).curWork = s.curWork.erase ch) ∧
    (env.isDisabled = true ∨ env.critical = true →
      (Bot.reapWorkerStep s ch env).curWork = s.curWork) ∧
    (env'.isDisabled = false →
      (Bot.loadWorkerStep s' ch' env').curWork = s'.curWork.erase ch') ∧
    (env'.isDisabled = true →
      (Bot.loadWorkerStep s' ch' env').curWork = s'.curWork) := by
  refine ⟨?_, ?_, ?_, ?_⟩
  · intro h1 h2
    cases hre : env.reapErr <;> cases hsb : env.shouldQueueBacklog <;>
      simp [Bot.reapWorkerStep, h1, h2, hre, hsb]
  · intro h
    cases hd : env.isDisabled
    · rcases h with h | h
      · exact absurd (hd.symm.trans h) (by decide)
      · simp [Bot.reapWorkerStep, hd, h]
    · simp [Bot.reapWorkerStep, hd]
  · intro h
    cases hre : env'.retryable <;> simp [Bot.loadWorkerStep, h, hre]
  · intro h
    simp [Bot.loadWorkerStep, h]

/-- Witness for the amended C6: a normal completion erases the channel from
the in-flight set. -/
theorem C6_inflight_cleanup_amended_witness :
    (Bot.reapWorkerStep ⟨{1}, 0, [], []⟩ 1
        ⟨false, false, false, false, 5, 0, 0⟩).curWork =
      ({1} : Finset Nat).erase 1 :=
  (C6_inflight_cleanup_amended ⟨{1}, 0, [], []⟩ 1
      ⟨false, false, false, false, 5, 0, 0⟩ ⟨∅, 0, []⟩ 0
      ⟨false, false, 0, 0⟩).1 rfl rfl

/-! ### Claim C7: the backlog re-queue after a reap -/

/-- C7 (counterexample): when the reap worker finishes a work item with the
refresh flag set, the channel is queued for backlog load with
`QueueLoadBacklog(ch, true)` — the failure path, which doubles the
accumulated delay and schedules at `now + newDelay`, not at an immediate due
time.  Here `loadFailures = 1s`, `r = 0`, `now = 0`: the entry is due at
`2000000000` (2s after `now`), and the stored delay grew from 1s to 2s. -/
theorem C7_backlog_not_immediate_cex :
    (Bot.reapWorkerStep ⟨{1}, 1000000000, [], []⟩ 1
        ⟨true, false, false, false, 99, 0, 0⟩).loadFailures = 2000000000 ∧
    (Bot.reapWorkerStep ⟨{1}, 1000000000, [], []⟩ 1
        ⟨true, false, false, false, 99, 0, 0⟩).loadRetries =
      [{ ch := 1, nextReap := 2000000000 }] ∧
    (2000000000 : Int) ≠ 0 := by
  have w1 : wrap64 2000000000 = 2000000000 :=
    wrap64_eq_self _ (by norm_num) (by norm_num)
  have hq : Bot.QueueLoadBacklog 1000000000 true 0 0 =
      (2000000000, 2000000000) := by
    show (wrap64 (wrap64 (1000000000 * 2) + 0),
          0 + wrap64 (wrap64 (1000000000 * 2) + 0)) = _
    norm_num [w1]
  refine ⟨?_, ?_, by norm_num⟩ <;>
    simp [Bot.reapWorkerStep, hq, reapQueue.Update, findChIdx, heapPush, up]

/-- C7 (amended): when the reap worker finishes a non-critical-drop work item
with the refresh flag set (or after a reap error), the resource is Upserted
into the backlog-load retry queue via `QueueLoadBacklog(ch, true)`: the
accumulated delay is increased by the failure backoff and the due time is
`now + newDelay`, not an immediate due time. -/
theorem C7_backlog_requeue_amended (s : RWState) (ch : Nat) (env : RWEnv)
    (h1 : env.isDisabled = false) (h2 : env.critical = false)
    (h3 : env.shouldQueueBacklog = true ∨ env.reapErr = true) :
    (Bot.reapWorkerStep s ch env).loadFailures =
      (Bot.QueueLoadBacklog s.loadFailures true env.r env.now).1 ∧
    (Bot.reapWorkerStep s ch env).loadRetries =
      reapQueue.Update s.loadRetries ch
        (Bot.QueueLoadBacklog s.loadFailures true env.r env.now).2 ∧
    (Bot.QueueLoadBacklog s.loadFailures true env.r env.now).2 =
      env.now + (Bot.QueueLoadBacklog s.loadFailures true env.r env.now).1 := by
  have hsqb : (if env.reapErr then true else env.shouldQueueBacklog) = true := by
    rcases h3 with h | h
    · cases henv : env.reapErr <;> simp [henv, h]
    · simp [h]
  refine ⟨?_, ?_, rfl⟩ <;>
    simp [Bot.reapWorkerStep, h1, h2, hsqb]

/-- Witness for the amended C7. -/
theorem C7_backlog_requeue_amended_witness :
    (Bot.reapWorkerStep ⟨∅, 5, [], []⟩ 1
        ⟨true, false, false, false, 0, 2, 3⟩).loadFailures =
      (Bot.QueueLoadBacklog 5 true 2 3).1 :=
  (C7_backlog_requeue_amended ⟨∅, 5, [], []⟩ 1
      ⟨true, false, false, false, 0, 2, 3⟩ rfl rfl (Or.inl rfl)).1

/-! ### Heap machinery: `downJ` and `up` -/

theorem downJ_child (l : priorityQueue) (i n : Nat) (h : 2 * i + 1 < n) :
    ChildOf (downJ l i n) i ∧ downJ l i n < n := by
  unfold downJ
  split
  · exact ⟨Or.inr rfl, by omega⟩
  · exact ⟨Or.inl rfl, by omega⟩

theorem downJ_min (l : priorityQueue) (i n : Nat) (h : 2 * i + 1 < n) :
    ∀ c, c < n → ChildOf c i → keyAt l (downJ l i n) ≤ keyAt l c := by
  intro c hc hcc
  unfold downJ
  split
  · rename_i hsel
    rcases hcc with rfl | rfl
    · exact le_of_lt hsel.2
    · exact le_refl _
  · rename_i hsel
    rcases hcc with rfl | rfl
    · exact le_refl _
    · rcases not_and_or.mp hsel with h1 | h1
      · omega
      · exact not_lt.mp h1

theorem length_up : ∀ (j : Nat) (l : priorityQueue), (up l j).length = l.length := by
  intro j
  induction j using Nat.strong_induction_on with
  | _ j IH =>
    intro l
    rw [up]
    split
    · rfl
    · rename_i h
      rw [not_or] at h
      rw [IH ((j - 1) / 2) (by omega), length_swapL]

theorem countP_up (p : pqItem → Bool) : ∀ (j : Nat) (l : priorityQueue),
    j < l.length → (up l j).countP p = l.countP p := by
  intro j
  induction j using Nat.strong_induction_on with
  | _ j IH =>
    intro l hj
    rw [up]
    split
    · rfl
    · rename_i h
      rw [not_or] at h
      rw [IH ((j - 1) / 2) (by omega) (swapL l ((j - 1) / 2) j)
            (by rw [length_swapL]; omega),
          countP_swapL p l ((j - 1) / 2) j (by omega) hj]

/-- Correctness of `container/heap`'s `up`: if the heap shape holds everywhere
except possibly at the edge into `j`, and the value above `j` already
dominates `j`'s children, then sifting up restores the full heap shape. -/
theorem up_correct : ∀ (j : Nat) (l : priorityQueue), j < l.length →
    HeapExcept l l.length j → GrandOK l l.length j → IsMinHeap (up l j) := by
  intro j
  induction j using Nat.strong_induction_on with
  | _ j IH =>
    intro l hj hA hB
    rw [up]
    split
    · rename_i h
      intro k hk hk0
      by_cases hkj : k = j
      · subst hkj
        rcases h with h0 | hge
        · exact absurd h0 (by omega)
        · exact not_lt.mp hge
      · exact hA k hk hk0 hkj
    · rename_i h
      rw [not_or] at h
      obtain ⟨hne, hltn⟩ := h
      have hlt : keyAt l j < keyAt l ((j - 1) / 2) := not_not.mp hltn
      have hj0 : 0 < j := by omega
      have hij : (j - 1) / 2 < j := by omega
      have hil : (j - 1) / 2 < l.length := by omega
      apply IH ((j - 1) / 2) hij (swapL l ((j - 1) / 2) j)
      · rw [length_swapL]; omega
      · -- HeapExcept of the swapped list at the parent position
        intro k hk hk0 hki
        rw [length_swapL] at hk
        by_cases hkj : k = j
        · rw [hkj]
          have hpj : parentIdx j = (j - 1) / 2 := rfl
          rw [hpj, keyAt_swapL_left l ((j - 1) / 2) j hil hj,
              keyAt_swapL_right l ((j - 1) / 2) j hil hj]
          exact le_of_lt hlt
        · rw [keyAt_swapL_ne l ((j - 1) / 2) j k hki hkj]
          by_cases hpi : parentIdx k = (j - 1) / 2
          · rw [hpi, keyAt_swapL_left l ((j - 1) / 2) j hil hj]
            have e1 := hA k hk hk0 hkj
            rw [hpi] at e1
            omega
          · by_cases hpj2 : parentIdx k = j
            · rw [hpj2, keyAt_swapL_right l ((j - 1) / 2) j hil hj]
              have hcj : ChildOf k j := by
                unfold ChildOf
                unfold parentIdx at hpj2
                omega
              exact hB hj0 k hk hcj
            · rw [keyAt_swapL_ne l ((j - 1) / 2) j (parentIdx k) hpi hpj2]
              exact hA k hk hk0 hkj
      · -- GrandOK of the swapped list at the parent position
        intro hi0 c hc hcc
        rw [length_swapL] at hc
        have hci : c ≠ (j - 1) / 2 := by unfold ChildOf at hcc; omega
        have hpii : parentIdx ((j - 1) / 2) < (j - 1) / 2 := by
          unfold parentIdx; omega
        have hgi : parentIdx ((j - 1) / 2) ≠ (j - 1) / 2 := by omega
        have hgj : parentIdx ((j - 1) / 2) ≠ j := by omega
        rw [keyAt_swapL_ne l ((j - 1) / 2) j (parentIdx ((j - 1) / 2)) hgi hgj]
        by_cases hcj : c = j
        · rw [hcj, keyAt_swapL_right l ((j - 1) / 2) j hil hj]
          exact hA ((j - 1) / 2) hil hi0 (by omega)
        · rw [keyAt_swapL_ne l ((j - 1) / 2) j c hci hcj]
          have hc0 : 0 < c := by unfold ChildOf at hcc; omega
          have hpc : parentIdx c = (j - 1) / 2 := by
            unfold ChildOf at hcc
            unfold parentIdx
            omega
          have e1 := hA ((j - 1) / 2) hil hi0 (by omega)
          have e2 := hA c hc hc0 hcj
          rw [hpc] at e2
          omega

/-! ### Heap machinery: `downAux` -/

theorem length_downAux : ∀ (m : Nat) (l : priorityQueue) (i n : Nat),
    n - i ≤ m → (downAux l i n).1.length = l.length := by
  intro m
  induction m with
  | zero =>
    intro l i n hm
    rw [downAux]
    split
    · rfl
    · rename_i hg
      exact absurd (by omega : n ≤ 2 * i + 1) hg
  | succ m IH =>
    intro l i n hm
    rw [downAux]
    split
    · rfl
    · rename_i hg
      split
      · have hij : i < downJ l i n := by unfold downJ; split <;> omega
        rw [IH (swapL l i (downJ l i n)) (downJ l i n) n (by omega), length_swapL]
      · rfl

theorem length_downAux' (l : priorityQueue) (i n : Nat) :
    (downAux l i n).1.length = l.length :=
  length_downAux (n - i) l i n (Nat.le_refl _)

theorem countP_downAux : ∀ (m : Nat) (p : pqItem → Bool) (l : priorityQueue)
    (i n : Nat), n - i ≤ m → n ≤ l.length →
    ((downAux l i n).1).countP p = l.countP p := by
  intro m
  induction m with
  | zero =>
    intro p l i n hm _
    rw [downAux]
    split
    · rfl
    · rename_i hg
      exact absurd (by omega : n ≤ 2 * i + 1) hg
  | succ m IH =>
    intro p l i n hm hn
    rw [downAux]
    split
    · rfl
    · rename_i hg
      split
      · have hij : i < downJ l i n := by unfold downJ; split <;> omega
        have hjn : downJ l i n < n := by unfold downJ; split <;> omega
        rw [IH p (swapL l i (downJ l i n)) (downJ l i n) n (by omega)
              (by rw [length_swapL]; omega),
            countP_swapL p l i (downJ l i n) (by omega) (by omega)]
      · rfl

theorem countP_downAux' (p : pqItem → Bool) (l : priorityQueue) (i n : Nat)
    (hn : n ≤ l.length) : ((downAux l i n).1).countP p = l.countP p :=
  countP_downAux (n - i) p l i n (Nat.le_refl _) hn

theorem getE_downAux_ge : ∀ (m : Nat) (l : priorityQueue) (i n k : Nat),
    n - i ≤ m → n ≤ k → getE (downAux l i n).1 k = getE l k := by
  intro m
  induction m with
  | zero =>
    intro l i n k hm _
    rw [downAux]
    split
    · rfl
    · rename_i hg
      exact absurd (by omega : n ≤ 2 * i + 1) hg
  | succ m IH =>
    intro l i n k hm hk
    rw [downAux]
    split
    · rfl
    · rename_i hg
      split
      · have hij : i < downJ l i n := by unfold downJ; split <;> omega
        have hjn : downJ l i n < n := by unfold downJ; split <;> omega
        rw [IH (swapL l i (downJ l i n)) (downJ l i n) n k (by omega) hk,
            getE_swapL_ne l i (downJ l i n) k (by omega) (by omega)]
      · rfl

theorem getE_downAux_ge' (l : priorityQueue) (i n k : Nat) (hk : n ≤ k) :
    getE (downAux l i n).1 k = getE l k :=
  getE_downAux_ge (n - i) l i n k (Nat.le_refl _) hk

/-- `DownSpec` for a run that stops immediately at `i`. -/
theorem downSpec_stop (l : priorityQueue) (i n : Nat)
    (hA : HeapExceptFrom l n i)
    (hstop : ∀ c, c < n → ChildOf c i → keyAt l i ≤ keyAt l c) :
    DownSpec l i n (l, i) := by
  refine ⟨rfl, fun k _ => rfl, fun k _ => rfl, ?_, Nat.le_refl i, fun _ => rfl,
    fun _ => hstop, ?_⟩
  · intro k hk hk0 hki
    by_cases hpi : parentIdx k = i
    · have hcc : ChildOf k i := by
        unfold ChildOf
        unfold parentIdx at hpi
        omega
      rw [hpi]
      exact hstop k hk hcc
    · exact hA k hk hk0 hpi
  · intro hlt
    exact absurd hlt (Nat.lt_irrefl i)

/-- Correctness of `container/heap`'s `down` loop: from a state whose heap
shape is intact except possibly at the edges out of `i` (with the value above
the hole dominating the hole's children), the run satisfies `DownSpec`. -/
theorem downAux_spec : ∀ (m : Nat) (l : priorityQueue) (i n : Nat),
    n - i ≤ m → n ≤ l.length → HeapExceptFrom l n i → GrandOK l n i →
    DownSpec l i n (downAux l i n) := by
  intro m
  induction m with
  | zero =>
    intro l i n hm hn hA hB
    rw [downAux]
    split
    · exact downSpec_stop l i n hA
        (by intro c hc hcc; unfold ChildOf at hcc; omega)
    · rename_i hg
      exact absurd (by omega : n ≤ 2 * i + 1) hg
  | succ m IH =>
    intro l i n hm hn hA hB
    rw [downAux]
    split
    · rename_i hg
      exact downSpec_stop l i n hA
        (by intro c hc hcc; unfold ChildOf at hcc; omega)
    · rename_i hg
      split
      · rename_i hlt
        have h1 : 2 * i + 1 < n := by omega
        obtain ⟨hcj, hjn⟩ := downJ_child l i n h1
        have hmin := downJ_min l i n h1
        generalize hjdef : downJ l i n = j at hlt hcj hjn hmin ⊢
        have hij : i < j := by unfold ChildOf at hcj; omega
        have hjl : j < l.length := by omega
        have hil : i < l.length := by omega
        have hpj : parentIdx j = i := by
          unfold ChildOf at hcj
          unfold parentIdx
          omega
        have hA' : HeapExceptFrom (swapL l i j) n j := by
          intro k hk hk0 hpk
          by_cases hki : k = i
          · rw [hki]
            have hi0 : 0 < i := hki ▸ hk0
            have hpi_lt : parentIdx i < i := by unfold parentIdx; omega
            rw [keyAt_swapL_ne l i j (parentIdx i) (by omega) (by omega),
                keyAt_swapL_left l i j hil hjl]
            exact hB hi0 j hjn hcj
          · by_cases hkj : k = j
            · rw [hkj, hpj, keyAt_swapL_left l i j hil hjl,
                  keyAt_swapL_right l i j hil hjl]
              exact le_of_lt hlt
            · rw [keyAt_swapL_ne l i j k hki hkj]
              by_cases hpi : parentIdx k = i
              · rw [hpi, keyAt_swapL_left l i j hil hjl]
                have hcc : ChildOf k i := by
                  unfold ChildOf
                  unfold parentIdx at hpi
                  omega
                exact hmin k hk hcc
              · rw [keyAt_swapL_ne l i j (parentIdx k) hpi hpk]
                exact hA k hk hk0 hpi
        have hB' : GrandOK (swapL l i j) n j := by
          intro hj0 c hc hcc
          have hcij : c ≠ i := by unfold ChildOf at hcc; omega
          have hcjj : c ≠ j := by unfold ChildOf at hcc; omega
          rw [hpj, keyAt_swapL_left l i j hil hjl,
              keyAt_swapL_ne l i j c hcij hcjj]
          have hpc : parentIdx c = j := by
            unfold ChildOf at hcc
            unfold parentIdx
            omega
          have h2 := hA c hc (by unfold ChildOf at hcc; omega)
            (by rw [hpc]; omega)
          rw [hpc] at h2
          exact h2
        obtain ⟨s_len, s_low, s_hi, s_hex, s_le, s_unm, s_stop, s_edge⟩ :=
          IH (swapL l i j) j n (by omega) (by rw [length_swapL]; omega) hA' hB'
        refine ⟨?_, ?_, ?_, ?_, ?_, ?_, ?_, ?_⟩
        · rw [s_len, length_swapL]
        · intro k hk
          rw [s_low k (by omega), getE_swapL_ne l i j k (by omega) (by omega)]
        · intro k hk
          rw [s_hi k hk, getE_swapL_ne l i j k (by omega) (by omega)]
        · intro k hk hk0 hki
          by_cases hkj : k = j
          · rw [hkj, hpj]
            rcases Nat.lt_or_ge j (downAux (swapL l i j) j n).2 with hmv | hmv
            · have he := s_edge hmv (by omega)
              rw [hpj] at he
              exact he
            · have heq : (downAux (swapL l i j) j n).2 = j := by omega
              rw [s_unm heq, keyAt_swapL_left l i j hil hjl,
                  keyAt_swapL_right l i j hil hjl]
              exact le_of_lt hlt
          · exact s_hex k hk hk0 hkj
        · exact Nat.le_of_lt (Nat.lt_of_lt_of_le hij s_le)
        · intro he
          exact absurd he (by omega)
        · intro he
          exact absurd he (by omega)
        · intro _ hi0
          have hp_lt : parentIdx i < i := by unfold parentIdx; omega
          unfold keyAt
          rw [s_low (parentIdx i) (by omega), s_low i hij,
              getE_swapL_ne l i j (parentIdx i) (by omega) (by omega),
              getE_swapL_left l i j hil hjl]
          exact hB hi0 j hjn hcj
      · rename_i hnlt
        have h1 : 2 * i + 1 < n := by omega
        exact downSpec_stop l i n hA
          (fun c hc hcc => le_trans (not_lt.mp hnlt) (downJ_min l i n h1 c hc hcc))

theorem downAux_spec' (l : priorityQueue) (i n : Nat) (hn : n ≤ l.length)
    (hA : HeapExceptFrom l n i) (hB : GrandOK l n i) :
    DownSpec l i n (downAux l i n) :=
  downAux_spec (n - i) l i n (Nat.le_refl _) hn hA hB

/-! ### Heap machinery: `Push`, `Fix`, `Pop` -/

theorem getE_append_lt : ∀ (l m : priorityQueue) (i : Nat),
    i < l.length → getE (l ++ m) i = getE l i := by
  intro l
  induction l with
  | nil => intro m i h; simp at h
  | cons a tl ih =>
    intro m i h
    cases i with
    | zero => rfl
    | succ i => exact ih m i (by simpa using h)

theorem getE_take : ∀ (l : priorityQueue) (n i : Nat),
    i < n → getE (l.take n) i = getE l i := by
  intro l
  induction l with
  | nil => intro n i _; rw [List.take_nil]
  | cons a tl ih =>
    intro n i h
    cases n with
    | zero => omega
    | succ n =>
      cases i with
      | zero => rfl
      | succ i => exact ih n i (by omega)

theorem mem_getE : ∀ (l : priorityQueue) (v : pqItem),
    v ∈ l → ∃ i, i < l.length ∧ getE l i = v := by
  intro l
  induction l with
  | nil => intro v hv; simp at hv
  | cons a tl ih =>
    intro v hv
    rcases List.mem_cons.mp hv with h | h
    · exact ⟨0, by simp, by rw [getE_cons_zero, h]⟩
    · obtain ⟨i, hi, he⟩ := ih v h
      exact ⟨i + 1, by simpa using hi, he⟩

/-- The root of a min-heap is a key lower bound for every position. -/
theorem root_min (l : priorityQueue) (h : IsMinHeap l) :
    ∀ i, i < l.length → keyAt l 0 ≤ keyAt l i := by
  intro i
  induction i using Nat.strong_induction_on with
  | _ i IH =>
    intro hi
    rcases Nat.eq_zero_or_pos i with h0 | hpos
    · rw [h0]
    · have hp : parentIdx i < i := by unfold parentIdx; omega
      exact le_trans (IH (parentIdx i) hp (by omega)) (h i hi hpos)

/-- The root of a min-heap is a key lower bound for every member. -/
theorem root_min_mem (l : priorityQueue) (h : IsMinHeap l) (v : pqItem)
    (hv : v ∈ l) : keyAt l 0 ≤ v.nextReap := by
  obtain ⟨i, hi, he⟩ := mem_getE l v hv
  have hle := root_min l h i hi
  rw [← he]
  exact hle

/-- A heap prefix stays a heap after truncation. -/
theorem isHeapN_take (l : priorityQueue) (n : Nat) (hn : n ≤ l.length)
    (h : IsHeapN l n) : IsMinHeap (l.take n) := by
  intro k hk hk0
  have hlen : (l.take n).length = n := by rw [List.length_take]; omega
  rw [hlen] at hk
  have hp : parentIdx k < n := by unfold parentIdx; omega
  have e1 : keyAt (l.take n) k = keyAt l k := by
    unfold keyAt; rw [getE_take l n k hk]
  have e2 : keyAt (l.take n) (parentIdx k) = keyAt l (parentIdx k) := by
    unfold keyAt; rw [getE_take l n (parentIdx k) hp]
  rw [e1, e2]
  exact h k hk hk0

/-- `heap.Push` preserves the heap invariant. -/
theorem heapPush_isMinHeap (l : priorityQueue) (h : IsMinHeap l) (x : pqItem) :
    IsMinHeap (heapPush l x) := by
  unfold heapPush
  apply up_correct l.length (l ++ [x])
    (by rw [List.length_append]; simp)
  · intro k hk hk0 hkj
    rw [List.length_append] at hk
    have hklen : k < l.length := by simp at hk; omega
    have hplen : parentIdx k < l.length := by unfold parentIdx; omega
    unfold keyAt
    rw [getE_append_lt l [x] k hklen, getE_append_lt l [x] (parentIdx k) hplen]
    exact h k hklen hk0
  · intro h0 c hc hcc
    unfold ChildOf at hcc
    rw [List.length_append] at hc
    simp at hc
    omega

/-- `heap.Fix` after overwriting one position preserves the heap invariant.
This is exactly the mutation done by `reapQueue.Update` on an existing entry.
-/
theorem heapFix_isMinHeap (l : priorityQueue) (idx : Nat) (x : pqItem)
    (hidx : idx < l.length) (h : IsMinHeap l) :
    IsMinHeap (heapFix (l.set idx x) idx) := by
  have hlen : (l.set idx x).length = l.length := by simp
  have hGrand : GrandOK (l.set idx x) (l.set idx x).length idx := by
    intro hi0 c hc hcc
    rw [hlen] at hc
    have hp_lt : parentIdx idx < idx := by unfold parentIdx; omega
    have hcidx : c ≠ idx := by unfold ChildOf at hcc; omega
    have e1 : keyAt (l.set idx x) (parentIdx idx) = keyAt l (parentIdx idx) := by
      unfold keyAt; rw [getE_set_ne l idx x (parentIdx idx) (by omega)]
    have e2 : keyAt (l.set idx x) c = keyAt l c := by
      unfold keyAt; rw [getE_set_ne l idx x c hcidx]
    rw [e1, e2]
    have f1 := h idx hidx hi0
    have hpc : parentIdx c = idx := by
      unfold ChildOf at hcc; unfold parentIdx; omega
    have f2 := h c (by omega) (by unfold ChildOf at hcc; omega)
    rw [hpc] at f2
    omega
  unfold heapFix
  by_cases hG : 2 * idx + 1 < (l.set idx x).length ∧
      keyAt (l.set idx x) (downJ (l.set idx x) idx (l.set idx x).length) <
        keyAt (l.set idx x) idx
  · have hA : HeapExceptFrom (l.set idx x) (l.set idx x).length idx := by
      intro k hk hk0 hpk
      rw [hlen] at hk
      by_cases hki : k = idx
      · rw [hki]
        have hi0 : 0 < idx := hki ▸ hk0
        obtain ⟨hJc, hJn⟩ :=
          downJ_child (l.set idx x) idx (l.set idx x).length hG.1
        have hJidx : downJ (l.set idx x) idx (l.set idx x).length ≠ idx := by
          unfold ChildOf at hJc; omega
        have hpidx : parentIdx idx ≠ idx := by unfold parentIdx; omega
        have hpidx_lt : parentIdx idx < idx := by unfold parentIdx; omega
        have eJ : keyAt (l.set idx x)
              (downJ (l.set idx x) idx (l.set idx x).length) =
            keyAt l (downJ (l.set idx x) idx (l.set idx x).length) := by
          unfold keyAt; rw [getE_set_ne l idx x _ hJidx]
        have eP : keyAt (l.set idx x) (parentIdx idx) =
            keyAt l (parentIdx idx) := by
          unfold keyAt; rw [getE_set_ne l idx x _ hpidx]
        have hpJ : parentIdx (downJ (l.set idx x) idx (l.set idx x).length) =
            idx := by
          unfold ChildOf at hJc; unfold parentIdx; omega
        have f2 := h (downJ (l.set idx x) idx (l.set idx x).length)
          (by omega) (by unfold ChildOf at hJc; omega)
        rw [hpJ] at f2
        have f1 := h idx hidx hi0
        have hGlt := hG.2
        rw [eJ] at hGlt
        rw [eP]
        omega
      · have e1 : keyAt (l.set idx x) k = keyAt l k := by
          unfold keyAt; rw [getE_set_ne l idx x k hki]
        have e2 : keyAt (l.set idx x) (parentIdx k) =
            keyAt l (parentIdx k) := by
          unfold keyAt; rw [getE_set_ne l idx x (parentIdx k) hpk]
        rw [e1, e2]
        exact h k (by omega) hk0
    obtain ⟨s_len, s_low, s_hi, s_hex, s_le, s_unm, s_stop, s_edge⟩ :=
      downAux_spec' (l.set idx x) idx (l.set idx x).length (Nat.le_refl _)
        hA hGrand
    have hmv : idx < (downAux (l.set idx x) idx (l.set idx x).length).2 := by
      rcases Nat.lt_or_ge idx
          (downAux (l.set idx x) idx (l.set idx x).length).2 with hc | hc
      · exact hc
      · exfalso
        have heq : (downAux (l.set idx x) idx (l.set idx x).length).2 = idx := by
          omega
        obtain ⟨hJc, hJn⟩ :=
          downJ_child (l.set idx x) idx (l.set idx x).length hG.1
        exact absurd hG.2 (not_lt.mpr (s_stop heq _ hJn hJc))
    rw [if_pos hmv]
    intro k hk hk0
    rw [s_len] at hk
    by_cases hki : k = idx
    · rw [hki]
      exact s_edge hmv (hki ▸ hk0)
    · exact s_hex k hk hk0 hki
  · have hstopfact : downAux (l.set idx x) idx (l.set idx x).length =
        (l.set idx x, idx) := by
      rw [downAux]
      by_cases hgl : (l.set idx x).length ≤ 2 * idx + 1
      · rw [dif_pos hgl]
      · rw [dif_neg hgl, if_neg (fun hcon => hG ⟨by omega, hcon⟩)]
    rw [hstopfact]
    rw [if_neg (Nat.lt_irrefl idx)]
    apply up_correct idx (l.set idx x) (by omega)
    · intro k hk hk0 hki
      rw [hlen] at hk
      by_cases hpk : parentIdx k = idx
      · have hcc : ChildOf k idx := by
          unfold ChildOf; unfold parentIdx at hpk; omega
        rw [hpk]
        have h2i : 2 * idx + 1 < (l.set idx x).length := by
          unfold ChildOf at hcc; omega
        have hnl : ¬ keyAt (l.set idx x)
              (downJ (l.set idx x) idx (l.set idx x).length) <
            keyAt (l.set idx x) idx := fun hcon => hG ⟨h2i, hcon⟩
        have hmin := downJ_min (l.set idx x) idx (l.set idx x).length h2i k
          (by omega) hcc
        have hle := not_lt.mp hnl
        omega
      · have e1 : keyAt (l.set idx x) k = keyAt l k := by
          unfold keyAt; rw [getE_set_ne l idx x k hki]
        have e2 : keyAt (l.set idx x) (parentIdx k) =
            keyAt l (parentIdx k) := by
          unfold keyAt; rw [getE_set_ne l idx x (parentIdx k) hpk]
        rw [e1, e2]
        exact h k (by omega) hk0
    · exact hGrand

/-- `reapQueue.Update` preserves the heap invariant. -/
theorem update_isMinHeap (l : priorityQueue) (h : IsMinHeap l) (c : Nat)
    (t : Int) : IsMinHeap (reapQueue.Update l c t) := by
  unfold reapQueue.Update
  cases hf : findChIdx l c with
  | none => exact heapPush_isMinHeap l h _
  | some idx =>
    obtain ⟨hlt, _⟩ := findChIdx_some l c idx hf
    exact heapFix_isMinHeap l idx _ hlt h

/-- What `heap.Pop` returns, independent of any heap hypothesis: the original
root, and the truncated sifted list. -/
theorem heapPop_fst (l : priorityQueue) (x : pqItem) (l2 : priorityQueue)
    (hp : heapPop l = some (x, l2)) :
    x = getE l 0 ∧ 0 < l.length ∧
      l2 = (downAux (swapL l 0 (l.length - 1)) 0 (l.length - 1)).1.take
        (l.length - 1) := by
  unfold heapPop at hp
  by_cases h0 : l.length = 0
  · rw [if_pos h0] at hp
    cases hp
  · rw [if_neg h0] at hp
    have hpair := Option.some.inj hp
    rw [Prod.mk.injEq] at hpair
    obtain ⟨h1, h2⟩ := hpair
    refine ⟨?_, by omega, h2.symm⟩
    rw [← h1, getE_downAux_ge' (swapL l 0 (l.length - 1)) 0 (l.length - 1)
          (l.length - 1) (Nat.le_refl _),
        getE_swapL_right l 0 (l.length - 1) (by omega) (by omega)]

/-- `heap.Pop` on a min-heap: the popped item is the root, the remaining list
is again a min-heap, and its members all come from the original list. -/
theorem heapPop_spec (l : priorityQueue) (h : IsMinHeap l) (x : pqItem)
    (l2 : priorityQueue) (hp : heapPop l = some (x, l2)) :
    IsMinHeap l2 ∧ x = getE l 0 ∧ ∀ v ∈ l2, v ∈ l := by
  obtain ⟨hx, hpos, hl2⟩ := heapPop_fst l x l2 hp
  have hn_le : l.length - 1 ≤ (swapL l 0 (l.length - 1)).length := by
    rw [length_swapL]; omega
  have hA : HeapExceptFrom (swapL l 0 (l.length - 1)) (l.length - 1) 0 := by
    intro k hk hk0 hpk
    have hpkk : parentIdx k < k := by unfold parentIdx; omega
    unfold keyAt
    rw [getE_swapL_ne l 0 (l.length - 1) k (by omega) (by omega),
        getE_swapL_ne l 0 (l.length - 1) (parentIdx k) (by omega) (by omega)]
    exact h k (by omega) hk0
  have hB : GrandOK (swapL l 0 (l.length - 1)) (l.length - 1) 0 :=
    fun h0 => absurd h0 (Nat.lt_irrefl 0)
  obtain ⟨s_len, s_low, s_hi, s_hex, s_le, s_unm, s_stop, s_edge⟩ :=
    downAux_spec' (swapL l 0 (l.length - 1)) 0 (l.length - 1) hn_le hA hB
  refine ⟨?_, hx, ?_⟩
  · rw [hl2]
    apply isHeapN_take _ (l.length - 1)
      (by rw [s_len, length_swapL]; omega)
    intro k hk hk0
    exact s_hex k hk hk0 (by omega)
  · intro v hv
    rw [hl2] at hv
    have hv1 : v ∈ (downAux (swapL l 0 (l.length - 1)) 0 (l.length - 1)).1 :=
      List.take_subset _ _ hv
    have hv2 : v ∈ swapL l 0 (l.length - 1) := by
      rw [mem_iff_countP] at hv1 ⊢
      rw [countP_downAux' _ (swapL l 0 (l.length - 1)) 0 (l.length - 1) hn_le]
        at hv1
      exact hv1
    rw [mem_iff_countP] at hv2 ⊢
    rw [countP_swapL _ l 0 (l.length - 1) (by omega) (by omega)] at hv2
    exact hv2

/-! ### Counting through the heap operations -/

theorem countP_heapPush (p : pqItem → Bool) (l : priorityQueue) (x : pqItem) :
    (heapPush l x).countP p = (l ++ [x]).countP p := by
  unfold heapPush
  exact countP_up p l.length (l ++ [x]) (by rw [List.length_append]; simp)

theorem mem_heapPush_iff (l : priorityQueue) (x v : pqItem) :
    v ∈ heapPush l x ↔ v ∈ l ++ [x] := by
  rw [mem_iff_countP, mem_iff_countP, countP_heapPush]

theorem countP_heapFix (p : pqItem → Bool) (l : priorityQueue) (i : Nat)
    (hi : i < l.length) : (heapFix l i).countP p = l.countP p := by
  unfold heapFix
  split
  · exact countP_downAux' p l i l.length (Nat.le_refl _)
  · rw [countP_up p i (downAux l i l.length).1
          (by rw [length_downAux']; exact hi),
        countP_downAux' p l i l.length (Nat.le_refl _)]

theorem length_heapFix (l : priorityQueue) (i : Nat) :
    (heapFix l i).length = l.length := by
  unfold heapFix
  split
  · exact length_downAux' l i l.length
  · rw [length_up, length_downAux']

theorem mem_heapFix_iff (l : priorityQueue) (i : Nat) (hi : i < l.length)
    (v : pqItem) : v ∈ heapFix l i ↔ v ∈ l := by
  rw [mem_iff_countP, mem_iff_countP, countP_heapFix _ l i hi]

/-! ### Claim C2: WaitForNext only returns due entries -/

/-- C2: whenever `WaitForNext` returns a channel, the queue was non-empty,
the returned channel is the root's, and the root's `nextReap` is not strictly
in the future: the pop happens exactly when `it.nextReap.After(now)` is
false, i.e. `nextReap ≤ now`. -/
theorem C2_wait_returns_due (l : priorityQueue) (now : Int) (c : Nat)
    (l2 : priorityQueue) (h : reapQueue.WaitForNext l now = some (c, l2)) :
    0 < l.length ∧ c = (getE l 0).ch ∧ (getE l 0).nextReap ≤ now := by
  unfold reapQueue.WaitForNext priorityQueue.Peek at h
  cases l with
  | nil => simp at h
  | cons a tl =>
    simp only [List.head?_cons] at h
    by_cases hlt : now < a.nextReap
    · rw [if_pos hlt] at h
      cases h
    · rw [if_neg hlt] at h
      obtain ⟨p, hp1, hp2⟩ := Option.map_eq_some'.mp h
      obtain ⟨hx, hpos, _⟩ := heapPop_fst (a :: tl) p.1 p.2 hp1
      rw [Prod.mk.injEq] at hp2
      refine ⟨by simp, ?_, not_lt.mp hlt⟩
      rw [← hp2.1, hx]

/-- Witness for C2: a single due entry is popped at its exact due time. -/
theorem C2_witness :
    reapQueue.WaitForNext [{ ch := 5, nextReap := 10 }] 10 = some (5, []) ∧
    (getE [{ ch := 5, nextReap := 10 }] 0).nextReap ≤ 10 := by
  have hcomp : reapQueue.WaitForNext [{ ch := 5, nextReap := 10 }] 10 =
      some (5, []) := by
    simp [reapQueue.WaitForNext, priorityQueue.Peek, heapPop, downAux, swapL,
      getE, keyAt]
  exact ⟨hcomp, (C2_wait_returns_due _ 10 5 [] hcomp).2.2⟩

/-! ### Claim C8: the heap root and pop order -/

/-- C8: for a queue satisfying the heap invariant, the root holds the
globally smallest `nextReap`; the invariant is preserved by `Update` (both
its `heap.Push` and `heap.Fix` branches) and by `WaitForNext`'s `heap.Pop`;
and two successive pops return entries with non-decreasing `nextReap`. -/
theorem C8_heap_invariant (l : priorityQueue) (h : IsMinHeap l) :
    (∀ v ∈ l, (getE l 0).nextReap ≤ v.nextReap) ∧
    (∀ c t, IsMinHeap (reapQueue.Update l c t)) ∧
    (∀ x l2, heapPop l = some (x, l2) → IsMinHeap l2 ∧ x = getE l 0 ∧
      ∀ y l3, heapPop l2 = some (y, l3) → x.nextReap ≤ y.nextReap) := by
  refine ⟨fun v hv => root_min_mem l h v hv,
    fun c t => update_isMinHeap l h c t, ?_⟩
  intro x l2 hp
  obtain ⟨h2, hx, hsub⟩ := heapPop_spec l h x l2 hp
  refine ⟨h2, hx, ?_⟩
  intro y l3 hp2
  obtain ⟨hy, hpos2, _⟩ := heapPop_fst l2 y l3 hp2
  have hym : y ∈ l2 := by
    rw [hy]
    exact getE_mem l2 0 hpos2
  have hfin := root_min_mem l h y (hsub y hym)
  rw [hx]
  exact hfin

/-- Witness for C8 on a concrete three-element heap. -/
theorem C8_witness :
    IsMinHeap [{ ch := 0, nextReap := 1 }, { ch := 1, nextReap := 2 },
      { ch := 2, nextReap := 3 }] ∧
    ∀ v ∈ ([{ ch := 0, nextReap := 1 }, { ch := 1, nextReap := 2 },
        { ch := 2, nextReap := 3 }] : priorityQueue),
      (getE [{ ch := 0, nextReap := 1 }, { ch := 1, nextReap := 2 },
        { ch := 2, nextReap := 3 }] 0).nextReap ≤ v.nextReap :=
  ⟨by decide, (C8_heap_invariant _ (by decide)).1⟩

/-! ### Claim C1: Update keeps one entry per channel, at the latest time -/

/-- C1: starting from a queue with at most one entry per channel, `Update`
keeps that invariant, leaves exactly one entry for the updated channel, that
entry carries the `t` of this (most recent) call, and when the channel was
already present the queue length is unchanged (overwrite in place, no second
entry). -/
theorem C1_update_unique (l : priorityQueue) (c : Nat) (t : Int)
    (h : ∀ c', chCount l c' ≤ 1) :
    (∀ c', chCount (reapQueue.Update l c t) c' ≤ 1) ∧
    chCount (reapQueue.Update l c t) c = 1 ∧
    (∀ v ∈ reapQueue.Update l c t, v.ch = c → v.nextReap = t) ∧
    (∀ idx, findChIdx l c = some idx →
      (reapQueue.Update l c t).length = l.length) := by
  unfold reapQueue.Update
  cases hf : findChIdx l c with
  | none =>
    have hnone := findChIdx_none l c hf
    have hzero : chCount l c = 0 := by
      unfold chCount
      rw [List.countP_eq_zero]
      intro v hv
      simpa using hnone v hv
    refine ⟨?_, ?_, ?_, ?_⟩
    · intro c'
      have e1 : chCount (heapPush l { ch := c, nextReap := t }) c' =
          chCount l c' + chCount [{ ch := c, nextReap := t }] c' := by
        unfold chCount
        rw [countP_heapPush, List.countP_append]
      rw [e1]
      by_cases hcc : c' = c
      · subst hcc
        have h1 : chCount [{ ch := c', nextReap := t }] c' ≤ 1 := by
          unfold chCount
          exact le_trans (List.countP_le_length _) (by simp)
        omega
      · have h1 : chCount [{ ch := c, nextReap := t }] c' = 0 := by
          unfold chCount
          rw [List.countP_eq_zero]
          intro v hv
          rw [List.mem_singleton.mp hv]
          simp only [beq_iff_eq]
          omega
        have h2 := h c'
        omega
    · have e1 : chCount (heapPush l { ch := c, nextReap := t }) c =
          chCount l c + chCount [{ ch := c, nextReap := t }] c := by
        unfold chCount
        rw [countP_heapPush, List.countP_append]
      have h1 : chCount [{ ch := c, nextReap := t }] c = 1 := by
        unfold chCount
        simp [List.countP_cons]
      rw [e1, hzero, h1]
    · intro v hv hvc
      rw [mem_heapPush_iff] at hv
      rcases List.mem_append.mp hv with hv | hv
      · exact absurd hvc (hnone v hv)
      · rw [List.mem_singleton.mp hv]
    · intro idx hidx
      exact Option.noConfusion hidx
  | some idx =>
    obtain ⟨hlt, hch⟩ := findChIdx_some l c idx hf
    have hidx2 : idx < (l.set idx { ch := (getE l idx).ch, nextReap := t }).length := by
      simp [hlt]
    have hcount : ∀ c',
        chCount (l.set idx { ch := (getE l idx).ch, nextReap := t }) c' =
          chCount l c' := by
      intro c'
      have h1 := countP_set (fun v => v.ch == c') l idx
        { ch := (getE l idx).ch, nextReap := t } hlt
      simp only [] at h1
      unfold chCount
      omega
    refine ⟨?_, ?_, ?_, ?_⟩
    · intro c'
      have e1 : chCount
          (heapFix (l.set idx { ch := (getE l idx).ch, nextReap := t }) idx) c' =
            chCount (l.set idx { ch := (getE l idx).ch, nextReap := t }) c' :=
        countP_heapFix _ _ idx hidx2
      rw [e1, hcount c']
      exact h c'
    · have e1 : chCount
          (heapFix (l.set idx { ch := (getE l idx).ch, nextReap := t }) idx) c =
            chCount (l.set idx { ch := (getE l idx).ch, nextReap := t }) c :=
        countP_heapFix _ _ idx hidx2
      rw [e1, hcount c]
      have hmem : getE l idx ∈ l := getE_mem l idx hlt
      have hpos : 0 < chCount l c := by
        unfold chCount
        exact List.countP_pos_iff.mpr ⟨getE l idx, hmem, by simp [hch]⟩
      have hle := h c
      omega
    · intro v hv hvc
      rw [mem_heapFix_iff _ idx hidx2] at hv
      by_cases hvx : v = { ch := (getE l idx).ch, nextReap := t }
      · rw [hvx]
      · exfalso
        have hxmem : ({ ch := (getE l idx).ch, nextReap := t } : pqItem) ∈
            l.set idx { ch := (getE l idx).ch, nextReap := t } := by
          have e := getE_set_self l idx
            { ch := (getE l idx).ch, nextReap := t } hlt
          have hm := getE_mem
            (l.set idx { ch := (getE l idx).ch, nextReap := t }) idx hidx2
          rw [e] at hm
          exact hm
        have h2 := two_mem_le_countP (fun v' => v'.ch == c) _ v _ hv hxmem hvx
          (by simp [hvc]) (by simp [hch])
        have h3 := hcount c
        unfold chCount at h3
        have hle := h c
        unfold chCount at hle
        omega
    · intro idx' _
      rw [length_heapFix]
      simp
/-- Witness for C1: updating the single entry of a one-element queue. -/
theorem C1_witness :
    (∀ c', chCount [{ ch := 1, nextReap := 5 }] c' ≤ 1) ∧
    chCount (reapQueue.Update [{ ch := 1, nextReap := 5 }] 1 9) 1 = 1 := by
  have hh : ∀ c', chCount [{ ch := 1, nextReap := 5 }] c' ≤ 1 := by
    intro c'
    unfold chCount
    rw [List.countP_cons]
    simp only [List.countP_nil]
    split <;> omega
  exact ⟨hh, (C1_update_unique _ 1 9 hh).2.1⟩
